import Mathlib

/-!
Shallow embedding of the Daft.ie room-hunter script (src/main.py) and proofs
about its change-detection and mail pipeline.

The embedding keeps the source structure: the persisted seen-listings file is
a raw character sequence; listing cards are records of the optional fields the
scraper reads; the per-listing loop of main is a fold over the fetched list.
-/

/-! ## Character-level utilities mirroring Python string operations -/

/-- Whitespace characters removed by the Python str.strip method. -/
def isSpaceChar (c : Char) : Bool :=
  c = ' ' || c = '\t' || c = '\n' || c = '\r' || c = '\x0b' || c = '\x0c'

/-- Python str.strip: drop leading and trailing whitespace. -/
def stripChars (l : List Char) : List Char :=
  ((l.dropWhile isSpaceChar).reverse.dropWhile isSpaceChar).reverse

/-- Python str.split(sep) for a one-character separator: the list of chunks
between occurrences of the separator, keeping empty chunks. -/
def splitOnChar (sep : Char) : List Char → List (List Char)
  | [] => [[]]
  | c :: cs =>
    let r := splitOnChar sep cs
    if c = sep then [] :: r else (c :: r.headI) :: r.tail

/-- Python substring containment helper: does the second list start with the
first one. -/
def startsWithL : List Char → List Char → Bool
  | [], _ => true
  | _ :: _, [] => false
  | a :: as, b :: bs => a = b && startsWithL as bs

/-- Python `needle in hay` on strings: contiguous substring test. -/
def hasSub (needle : List Char) : List Char → Bool
  | [] => needle.isEmpty
  | b :: bs => startsWithL needle (b :: bs) || hasSub needle bs

/-! ## Configuration constants (src/main.py lines 35-36) -/

def PRICE_MIN : Nat := 1000
def PRICE_MAX : Nat := 1700

/-! ## Dedup store (src/main.py lines 47-66)

The persisted store is the raw content of seen_listings.txt, a character
sequence.  An absent file behaves as the empty content. -/

/-- load_seen_listings: the set of stripped, non-blank lines of the file. -/
def load_seen_listings (file : List Char) : Finset String :=
  (((((splitOnChar '\n' file).map stripChars).filter (fun l => l ≠ [])).map
    String.mk)).toFinset

/-- save_listing_id: append the id followed by a newline to the file. -/
def save_listing_id (file : List Char) (id : String) : List Char :=
  file ++ id.data ++ ['\n']

/-! ## Listing-id and price parsing (src/main.py lines 184-197) -/

/-- Core of the regex match after the optional trailing slash is removed:
the trailing digit run of base, accepted only when non-empty and directly
preceded by a dash. -/
def matchedIdCore (base : List Char) : Option (List Char) :=
  let r := base.reverse
  let ds := r.takeWhile Char.isDigit
  if ds = [] then none
  else if (r.dropWhile Char.isDigit).head? = some '-' then some ds.reverse
  else none

/-- The regex search for a dash, digits, and an optional final slash at the
end of the URL (pattern dash, digit group, optional slash, end-of-string):
returns the digit group when it matches. -/
def matchedId (cs : List Char) : Option (List Char) :=
  matchedIdCore (if cs.getLast? = some '/' then cs.dropLast else cs)

/-- extract_listing_id: the digits of the trailing dash-digits segment when
the regex matches, otherwise the last component of url.split with slash. -/
def extract_listing_id (url : String) : String :=
  match matchedId url.data with
  | some ds => String.mk ds
  | none => String.mk ((splitOnChar '/' url.data).getLastD [])

/-- Replace a newline by a space, as in the Python replace call. -/
def nlToSpace (c : Char) : Char := if c = '\n' then ' ' else c

/-- parse_price: N/A on empty text, otherwise strip surrounding whitespace
and replace newlines by spaces.  No numeric extraction happens here. -/
def parse_price (priceText : String) : String :=
  if priceText = "" then "N/A"
  else String.mk ((stripChars priceText.data).map nlToSpace)

/-! ## Extraction (src/main.py lines 200-337) -/

/-- One scraped listing card: the optional pieces the card loop reads.
A missing field corresponds to the NoSuchElementException branches. -/
structure RawCard where
  link : Option String
  priceText : Option String
  title : Option String
  address : Option String
deriving DecidableEq, Repr

/-- The listing dictionary built by the card loop. -/
structure Listing where
  id : String
  price : String
  address : String
  title : String
  link : String
deriving DecidableEq, Repr

/-- The card loop body (src/main.py lines 267-325): skip cards without a
link or whose link is empty or lacking the daft.ie substring, otherwise
build the listing dictionary. -/
def extractCard (card : RawCard) : Option Listing :=
  match card.link with
  | none => none
  | some link =>
    if link = "" then none
    else if ¬ hasSub "daft.ie".data link.data then none
    else
      let id := extract_listing_id link
      let priceText := match card.priceText with
        | some t => t
        | none => "N/A"
      let price := parse_price priceText
      let title := match card.title with
        | some t => String.mk (stripChars t.data)
        | none => "No title"
      let address := match card.address with
        | some a => String.mk (stripChars a.data)
        | none => title
      some { id := id, price := price, address := address,
             title := title, link := link }

/-- search_daft_listings: any scraping failure yields the empty list
(src/main.py lines 330-332); otherwise every card is processed in order and
cards that fail to yield a listing are skipped. -/
def search_daft_listings (fetch : Except Unit (List RawCard)) : List Listing :=
  match fetch with
  | Except.error _ => []
  | Except.ok cards => cards.filterMap extractCard

/-! ## Notifier and orchestrator (src/main.py lines 69-135, 340-383) -/

/-- send_email_notification returns failure at once when the credentials are
absent (src/main.py lines 79-81); with credentials present the delivery
outcome is the oracle's verdict for the listing. -/
def sendOk (credsOk : Bool) (oracle : Listing → Bool) (l : Listing) : Bool :=
  credsOk && oracle l

/-- The mutable state of the per-listing loop in main: the two counters, the
in-memory seen set, the persisted file, plus the trace of notify invocations
and of saved ids (ghost fields recording the calls, in order). -/
structure LoopState where
  newCount : Nat
  emailCount : Nat
  seen : Finset String
  file : List Char
  attempts : List String
  savedIds : List String
deriving DecidableEq

/-- One iteration of the loop (src/main.py lines 361-378): skip seen ids;
otherwise count the listing as new, attempt the notification, and on success
append the id to the file and add it to the in-memory set. -/
def processListing (notifyOk : Listing → Bool) (st : LoopState)
    (l : Listing) : LoopState :=
  if l.id ∈ st.seen then st
  else
    let st1 := { st with newCount := st.newCount + 1,
                         attempts := st.attempts ++ [l.id] }
    if notifyOk l then
      { st1 with file := save_listing_id st1.file l.id,
                 seen := insert l.id st1.seen,
                 emailCount := st1.emailCount + 1,
                 savedIds := st1.savedIds ++ [l.id] }
    else st1

def processListings (notifyOk : Listing → Bool) (listings : List Listing)
    (st : LoopState) : LoopState :=
  listings.foldl (processListing notifyOk) st

/-- Result of one run of main: the fetched listings, the final loop state,
the numeric summary when one is logged, and the process exit code. -/
structure MainResult where
  listings : List Listing
  st : LoopState
  summary : Option (Nat × Nat × Nat)
  exitCode : Nat
deriving DecidableEq

/-- The main function of src/main.py (lines 340-383; the source name main is
reserved by Lean for executables): load the seen set, fetch, return early
when no listings were found (no summary line in that case), otherwise run
the loop and log the summary.  The function never raises and the script
always exits with code zero. -/
def mainFn (credsOk : Bool) (oracle : Listing → Bool)
    (fetch : Except Unit (List RawCard)) (file0 : List Char) : MainResult :=
  let seen0 := load_seen_listings file0
  let st0 : LoopState :=
    { newCount := 0, emailCount := 0, seen := seen0, file := file0,
      attempts := [], savedIds := [] }
  let listings := search_daft_listings fetch
  if listings.isEmpty then
    { listings := listings, st := st0, summary := none, exitCode := 0 }
  else
    let st := processListings (sendOk credsOk oracle) listings st0
    { listings := listings, st := st,
      summary := some (listings.length, st.newCount, st.emailCount),
      exitCode := 0 }

/-! ## Well-formedness predicates -/

/-- The file is empty or ends with a newline: true of every store the script
itself creates (the file is created empty and only ever grown by
save_listing_id, which ends each write with a newline). -/
def nlTerm (cs : List Char) : Bool :=
  cs.isEmpty || cs.getLast? = some '\n'

/-- A listing id that round-trips through the line-oriented store: non-empty,
free of newlines, and unchanged by stripping. -/
def cleanIdB (id : String) : Bool :=
  !id.data.isEmpty && stripChars id.data = id.data && '\n' ∉ id.data

/-! ## Spec-side definitions -/

/-- Modelled from the spec: numeric price resolution (first run of digits
after removing thousands separators, absence of digits meaning unknown) is
absent from the code, which never interprets the price text numerically;
this definition follows section 4.1 of the spec and is used only to state
claims that mention a resolved price. -/
def resolvedPriceSpec (s : String) : Option Nat :=
  let cs := s.data.filter (fun c => c ≠ ',')
  let run := (cs.dropWhile (fun c => ¬ c.isDigit)).takeWhile Char.isDigit
  if run = [] then none
  else some (run.foldl (fun n c => 10 * n + (c.toNat - 48)) 0)

/-! ## Helper lemmas about splitOnChar and the store -/

theorem splitOnChar_ne_nil (sep : Char) (cs : List Char) :
    splitOnChar sep cs ≠ [] := by
  cases cs with
  | nil => simp [splitOnChar]
  | cons c cs =>
    simp only [splitOnChar]
    by_cases hc : c = sep <;> simp [hc]

theorem length_cons_tail {α : Type} (x : α) {r : List α} (h : r ≠ []) :
    (x :: r.tail).length = r.length := by
  cases r with
  | nil => exact absurd rfl h
  | cons a r => simp

theorem mem_of_getLast?_eq {α : Type} {l : List α} {a : α}
    (h : l.getLast? = some a) : a ∈ l := by
  induction l with
  | nil => simp at h
  | cons c l ih =>
    cases l with
    | nil => simp at h; simp [h]
    | cons b l =>
      rw [List.getLast?_cons_cons] at h
      exact List.mem_cons_of_mem _ (ih h)

theorem split_cons (sep c : Char) (cs : List Char) :
    splitOnChar sep (c :: cs) =
      if c = sep then [] :: splitOnChar sep cs
      else (c :: (splitOnChar sep cs).headI) :: (splitOnChar sep cs).tail := rfl

theorem split_two_le {sep : Char} : ∀ {cs : List Char}, sep ∈ cs →
    2 ≤ (splitOnChar sep cs).length := by
  intro cs h
  induction cs with
  | nil => simp at h
  | cons c cs ih =>
    rw [split_cons]
    by_cases hc : c = sep
    · rw [if_pos hc, List.length_cons]
      have := List.length_pos.mpr (splitOnChar_ne_nil sep cs)
      omega
    · have hmem : sep ∈ cs := by
        rcases List.mem_cons.mp h with h1 | h1
        · exact absurd h1.symm hc
        · exact h1
      rw [if_neg hc, length_cons_tail _ (splitOnChar_ne_nil sep cs)]
      exact ih hmem

theorem split_chunk {sep : Char} : ∀ {id : List Char}, sep ∉ id →
    ∀ rest, splitOnChar sep (id ++ sep :: rest) = id :: splitOnChar sep rest := by
  intro id h rest
  induction id with
  | nil => simp [splitOnChar]
  | cons c id ih =>
    have hc : c ≠ sep := fun hc => h (by simp [hc])
    have h2 : sep ∉ id := fun hm => h (List.mem_cons_of_mem _ hm)
    rw [List.cons_append, split_cons, if_neg hc, ih h2]
    simp

theorem split_append_nlTerm : ∀ {F : List Char}, nlTerm F = true →
    ∀ t, splitOnChar '\n' (F ++ t) =
      (splitOnChar '\n' F).dropLast ++ splitOnChar '\n' t := by
  intro F h t
  induction F with
  | nil => simp [splitOnChar]
  | cons c F ih =>
    cases F with
    | nil =>
      have hc : c = '\n' := by
        simp [nlTerm] at h; exact h
      subst hc
      simp [splitOnChar]
    | cons f F' =>
      have hnl : nlTerm (f :: F') = true := by
        simp only [nlTerm, List.isEmpty_cons, Bool.false_or] at h ⊢
        rw [List.getLast?_cons_cons] at h
        simp [h]
      have hIH := ih hnl
      have hmem : '\n' ∈ (f :: F') := by
        simp only [nlTerm, List.isEmpty_cons, Bool.false_or,
          decide_eq_true_eq] at hnl
        exact mem_of_getLast?_eq hnl
      have h2 := @split_two_le '\n' (f :: F') hmem
      rcases hS : splitOnChar '\n' (f :: F') with _ | ⟨a, S1⟩
      · exact absurd hS (splitOnChar_ne_nil _ _)
      rcases S1 with _ | ⟨b, S'⟩
      · rw [hS] at h2; simp at h2
      rw [hS] at hIH
      have e1 : splitOnChar '\n' ((c :: f :: F') ++ t) =
          if c = '\n' then [] :: splitOnChar '\n' ((f :: F') ++ t)
          else (c :: (splitOnChar '\n' ((f :: F') ++ t)).headI) ::
            (splitOnChar '\n' ((f :: F') ++ t)).tail := rfl
      have e2 : splitOnChar '\n' (c :: f :: F') =
          if c = '\n' then [] :: splitOnChar '\n' (f :: F')
          else (c :: (splitOnChar '\n' (f :: F')).headI) ::
            (splitOnChar '\n' (f :: F')).tail := rfl
      rw [e1, e2]
      simp only [List.cons_append] at *
      rw [hIH, hS]
      by_cases hc : c = '\n'
      · rw [if_pos hc, if_pos hc]
        simp [List.dropLast]
      · rw [if_neg hc, if_neg hc]
        simp [List.dropLast]

theorem nlTerm_save (F : List Char) (id : String) :
    nlTerm (save_listing_id F id) = true := by
  simp only [save_listing_id, nlTerm]
  have : (F ++ id.data ++ ['\n']).getLast? = some '\n' := by
    rw [List.getLast?_concat]
  simp [this]

theorem string_mk_data (s : String) : String.mk s.data = s := rfl

theorem stripChars_nil : stripChars [] = [] := rfl

theorem split_self_of_nlTerm {F : List Char} (h : nlTerm F = true) :
    splitOnChar '\n' F = (splitOnChar '\n' F).dropLast ++ [[]] := by
  have := split_append_nlTerm h []
  rw [List.append_nil] at this
  simpa [splitOnChar] using this

/-- Appending one clean id to a newline-terminated store adds exactly that id
to the loaded set. -/
theorem load_record {F : List Char} {id : String} (hF : nlTerm F = true)
    (hid : cleanIdB id = true) :
    load_seen_listings (save_listing_id F id) =
      insert id (load_seen_listings F) := by
  have hid' : (id.data ≠ [] ∧ stripChars id.data = id.data) ∧
      '\n' ∉ id.data := by
    simpa [cleanIdB] using hid
  obtain ⟨⟨hid1', hid2⟩, hid3⟩ := hid'
  have hsplit : splitOnChar '\n' (save_listing_id F id) =
      (splitOnChar '\n' F).dropLast ++ [id.data, []] := by
    have h1 : save_listing_id F id = F ++ (id.data ++ '\n' :: []) := by
      simp [save_listing_id]
    rw [h1, split_append_nlTerm hF, split_chunk hid3]
    simp [splitOnChar]
  have hsplitF := split_self_of_nlTerm hF
  unfold load_seen_listings
  rw [hsplit]
  conv_rhs => rw [hsplitF]
  simp only [List.map_append, List.filter_append, List.toFinset_append,
    List.map_cons, List.map_nil, stripChars_nil, hid2]
  rw [List.filter_cons, List.filter_cons]
  simp only [hid1', decide_not, List.filter_nil]
  simp [string_mk_data, Finset.union_comm, Finset.insert_eq]

/-! ## Helper lemmas about the per-listing loop -/

theorem processListings_nil (n : Listing → Bool) (st : LoopState) :
    processListings n [] st = st := rfl

theorem processListings_cons (n : Listing → Bool) (l : Listing)
    (ls : List Listing) (st : LoopState) :
    processListings n (l :: ls) st =
      processListings n ls (processListing n st l) := rfl

/-- Every id in savedIds was either there before the loop or belongs to a
processed listing whose notification succeeded. -/
theorem process_savedIds_src {n : Listing → Bool} :
    ∀ {ls : List Listing} {st : LoopState} {x : String},
      x ∈ (processListings n ls st).savedIds →
      x ∈ st.savedIds ∨ ∃ l, l ∈ ls ∧ l.id = x ∧ n l = true := by
  intro ls
  induction ls with
  | nil => intro st x h; exact Or.inl h
  | cons l ls ih =>
    intro st x h
    rw [processListings_cons] at h
    rcases ih h with h1 | ⟨l', hl', hid, hn⟩
    · by_cases hseen : l.id ∈ st.seen
      · simp only [processListing, if_pos hseen] at h1
        exact Or.inl h1
      · by_cases hn : n l = true
        · simp only [processListing, if_neg hseen, hn, if_pos] at h1
          simp only [List.mem_append, List.mem_singleton] at h1
          rcases h1 with h1 | h1
          · exact Or.inl h1
          · exact Or.inr ⟨l, List.mem_cons_self l ls, h1.symm ▸ rfl, hn⟩
        · simp only [processListing, if_neg hseen, hn, if_false] at h1
          exact Or.inl h1
    · exact Or.inr ⟨l', List.mem_cons_of_mem _ hl', hid, hn⟩

/-- Every id in the final in-memory seen set was seen before the loop or
belongs to a processed listing whose notification succeeded. -/
theorem process_seen_src {n : Listing → Bool} :
    ∀ {ls : List Listing} {st : LoopState} {x : String},
      x ∈ (processListings n ls st).seen →
      x ∈ st.seen ∨ ∃ l, l ∈ ls ∧ l.id = x ∧ n l = true := by
  intro ls
  induction ls with
  | nil => intro st x h; exact Or.inl h
  | cons l ls ih =>
    intro st x h
    rw [processListings_cons] at h
    rcases ih h with h1 | ⟨l', hl', hid, hn⟩
    · by_cases hseen : l.id ∈ st.seen
      · simp only [processListing, if_pos hseen] at h1
        exact Or.inl h1
      · by_cases hn : n l = true
        · simp only [processListing, if_neg hseen, hn, if_pos] at h1
          rcases Finset.mem_insert.mp h1 with h1 | h1
          · exact Or.inr ⟨l, List.mem_cons_self l ls, h1.symm, hn⟩
          · exact Or.inl h1
        · simp only [processListing, if_neg hseen, hn, if_false] at h1
          exact Or.inl h1
    · exact Or.inr ⟨l', List.mem_cons_of_mem _ hl', hid, hn⟩

/-- The loop keeps the store newline terminated and never lets an id whose
notifications all fail enter the persisted set. -/
theorem process_file_inv {n : Listing → Bool} :
    ∀ {ls : List Listing} {st : LoopState},
      (∀ l ∈ ls, cleanIdB l.id = true) → nlTerm st.file = true →
      nlTerm (processListings n ls st).file = true ∧
      ∀ x : String, (∀ l ∈ ls, l.id = x → n l = false) →
        x ∉ load_seen_listings st.file →
        x ∉ load_seen_listings (processListings n ls st).file := by
  intro ls
  induction ls with
  | nil => intro st _ hfile; exact ⟨hfile, fun x _ hx => hx⟩
  | cons l ls ih =>
    intro st hclean hfile
    have hcl : cleanIdB l.id = true := hclean l (List.mem_cons_self l ls)
    have hcls : ∀ l' ∈ ls, cleanIdB l'.id = true :=
      fun l' h' => hclean l' (List.mem_cons_of_mem _ h')
    rw [processListings_cons]
    by_cases hseen : l.id ∈ st.seen
    · have hst : processListing n st l = st := by
        simp only [processListing, if_pos hseen]
      rw [hst]
      obtain ⟨h1, h2⟩ := ih hcls hfile
      exact ⟨h1, fun x hx => h2 x (fun l' h' => hx l' (List.mem_cons_of_mem _ h'))⟩
    · by_cases hn : n l = true
      · have hst : (processListing n st l).file = save_listing_id st.file l.id ∧
            (processListing n st l).seen = insert l.id st.seen := by
          simp [processListing, hseen, hn]
        have hfile' : nlTerm (processListing n st l).file = true := by
          rw [hst.1]; exact nlTerm_save _ _
        obtain ⟨h1, h2⟩ := ih hcls hfile'
        refine ⟨h1, fun x hx hx0 => ?_⟩
        have hne : l.id ≠ x := by
          intro he
          have := hx l (List.mem_cons_self l ls) he
          rw [hn] at this
          exact Bool.true_eq_false.mp this
        have hx1 : x ∉ load_seen_listings (processListing n st l).file := by
          rw [hst.1, load_record hfile hcl]
          intro hmem
          rcases Finset.mem_insert.mp hmem with h | h
          · exact hne h.symm
          · exact hx0 h
        exact h2 x (fun l' h' => hx l' (List.mem_cons_of_mem _ h')) hx1
      · have hst : (processListing n st l).file = st.file := by
          simp [processListing, hseen, hn]
        obtain ⟨h1, h2⟩ := ih hcls (hst ▸ hfile)
        refine ⟨h1, fun x hx hx0 => ?_⟩
        exact h2 x (fun l' h' => hx l' (List.mem_cons_of_mem _ h')) (hst ▸ hx0)

/-- When every notification fails, the loop changes nothing except the
counters and the attempt trace. -/
theorem process_nofail {n : Listing → Bool} :
    ∀ {ls : List Listing} {st : LoopState}, (∀ l ∈ ls, n l = false) →
      (processListings n ls st).seen = st.seen ∧
      (processListings n ls st).file = st.file ∧
      (processListings n ls st).savedIds = st.savedIds ∧
      (processListings n ls st).emailCount = st.emailCount := by
  intro ls
  induction ls with
  | nil => intro st _; exact ⟨rfl, rfl, rfl, rfl⟩
  | cons l ls ih =>
    intro st h
    have hn : n l = false := h l (List.mem_cons_self l ls)
    have hls : ∀ l' ∈ ls, n l' = false :=
      fun l' h' => h l' (List.mem_cons_of_mem _ h')
    rw [processListings_cons]
    by_cases hseen : l.id ∈ st.seen
    · have hst : processListing n st l = st := by
        simp only [processListing, if_pos hseen]
      rw [hst]; exact ih hls
    · have hst : (processListing n st l).seen = st.seen ∧
          (processListing n st l).file = st.file ∧
          (processListing n st l).savedIds = st.savedIds ∧
          (processListing n st l).emailCount = st.emailCount := by
        simp only [processListing, if_neg hseen, hn, if_false]
        exact ⟨rfl, rfl, rfl, rfl⟩
      obtain ⟨e1, e2, e3, e4⟩ := @ih (processListing n st l) hls
      exact ⟨e1.trans hst.1, e2.trans hst.2.1, e3.trans hst.2.2.1,
        e4.trans hst.2.2.2⟩

/-- Ids outside the remaining listings gather no further notify attempts. -/
theorem process_count_notmem {n : Listing → Bool} :
    ∀ {ls : List Listing} {st : LoopState} {x : String},
      x ∉ ls.map (fun l => l.id) →
      ((processListings n ls st).attempts).count x = (st.attempts).count x := by
  intro ls
  induction ls with
  | nil => intro st x _; rfl
  | cons l ls ih =>
    intro st x hx
    have hne : l.id ≠ x := by
      intro he; exact hx (by simp [he])
    have hx' : x ∉ ls.map (fun l => l.id) := by
      intro hm; exact hx (by simp [List.mem_cons]; right; simpa using hm)
    rw [processListings_cons]
    rw [ih hx']
    by_cases hseen : l.id ∈ st.seen
    · simp [processListing, hseen]
    · by_cases hn : n l = true
      · simp [processListing, hseen, hn, List.count_append, List.count_cons,
          hne]
      · simp [processListing, hseen, hn, List.count_append, List.count_cons,
          hne]

/-- With pairwise distinct listing ids, an unseen id gathers exactly one
notify attempt over the whole loop, whatever the notify outcomes are. -/
theorem process_count_one {n : Listing → Bool} :
    ∀ {ls : List Listing} {st : LoopState} {x : String},
      (ls.map (fun l => l.id)).Nodup →
      x ∈ ls.map (fun l => l.id) → x ∉ st.seen →
      ((processListings n ls st).attempts).count x =
        (st.attempts).count x + 1 := by
  intro ls
  induction ls with
  | nil => intro st x _ hx; simp at hx
  | cons l ls ih =>
    intro st x hnd hx hseen0
    have hnd' := hnd
    rw [List.map_cons, List.nodup_cons] at hnd'
    obtain ⟨hhead, htail⟩ := hnd'
    rw [processListings_cons]
    by_cases he : l.id = x
    · have hseen : l.id ∉ st.seen := by rw [he]; exact hseen0
      have hxtail : x ∉ ls.map (fun l => l.id) := he ▸ hhead
      rw [process_count_notmem hxtail]
      by_cases hn : n l = true
      · have ha : (processListing n st l).attempts = st.attempts ++ [l.id] := by
          simp [processListing, hseen, hn]
        rw [ha, he]
        simp [List.count_append, List.count_cons]
      · have ha : (processListing n st l).attempts = st.attempts ++ [l.id] := by
          simp [processListing, hseen, hn]
        rw [ha, he]
        simp [List.count_append, List.count_cons]
    · have hne : x ≠ l.id := fun h => he h.symm
      have hxtail : x ∈ ls.map (fun l => l.id) := by
        rcases List.mem_map.mp hx with ⟨l', hl', hid⟩
        rcases List.mem_cons.mp hl' with h | h
        · exact absurd (h ▸ hid) he
        · exact List.mem_map.mpr ⟨l', h, hid⟩
      by_cases hseen : l.id ∈ st.seen
      · have hst : processListing n st l = st := by
          simp [processListing, hseen]
        rw [hst]
        exact ih htail hxtail hseen0
      · by_cases hn : n l = true
        · have ha : (processListing n st l).attempts = st.attempts ++ [l.id] ∧
              (processListing n st l).seen = insert l.id st.seen := by
            simp [processListing, hseen, hn]
          have hseen' : x ∉ (processListing n st l).seen := by
            rw [ha.2]
            intro hm
            rcases Finset.mem_insert.mp hm with h | h
            · exact hne h
            · exact hseen0 h
          rw [ih htail hxtail hseen', ha.1]
          simp [List.count_append, List.count_cons, hne]
        · have ha : (processListing n st l).attempts = st.attempts ++ [l.id] ∧
              (processListing n st l).seen = st.seen := by
            simp [processListing, hseen, hn]
          have hseen' : x ∉ (processListing n st l).seen := ha.2 ▸ hseen0
          rw [ih htail hxtail hseen', ha.1]
          simp [List.count_append, List.count_cons, hne]

/-! ## Helper lemmas about takeWhile, dropWhile and the last URL segment -/

theorem takeWhile_append_of_all {α : Type} {p : α → Bool} :
    ∀ {xs : List α} (ys : List α), (∀ a ∈ xs, p a = true) →
      (xs ++ ys).takeWhile p = xs ++ ys.takeWhile p := by
  intro xs
  induction xs with
  | nil => intro ys _; rfl
  | cons x xs ih =>
    intro ys h
    have hx : p x = true := h x (List.mem_cons_self x xs)
    simp only [List.cons_append, List.takeWhile_cons, hx, if_pos]
    rw [ih ys (fun a ha => h a (List.mem_cons_of_mem _ ha))]

theorem dropWhile_append_of_all {α : Type} {p : α → Bool} :
    ∀ {xs : List α} (ys : List α), (∀ a ∈ xs, p a = true) →
      (xs ++ ys).dropWhile p = ys.dropWhile p := by
  intro xs
  induction xs with
  | nil => intro ys _; rfl
  | cons x xs ih =>
    intro ys h
    have hx : p x = true := h x (List.mem_cons_self x xs)
    simp only [List.cons_append, List.dropWhile_cons, hx, if_pos]
    exact ih ys (fun a ha => h a (List.mem_cons_of_mem _ ha))

theorem takeWhile_all {α : Type} {p : α → Bool} {xs : List α}
    (h : ∀ a ∈ xs, p a = true) : xs.takeWhile p = xs := by
  have := @takeWhile_append_of_all α p xs [] h
  simpa using this

theorem takeWhile_append_stop {α : Type} {p : α → Bool} {a : α}
    (ha : p a = false) : ∀ (xs ys : List α),
      (xs ++ a :: ys).takeWhile p = xs.takeWhile p := by
  intro xs ys
  induction xs with
  | nil => simp [List.takeWhile_cons, ha]
  | cons x xs ih =>
    by_cases hx : p x = true
    · simp only [List.cons_append, List.takeWhile_cons, hx, if_pos, ih]
    · have hx' : p x = false := Bool.not_eq_true _ ▸ eq_false_of_ne_true hx
      simp [List.takeWhile_cons, hx']

theorem takeWhile_append_of_mem_false {α : Type} {p : α → Bool} :
    ∀ {xs : List α} (ys : List α), (∃ a ∈ xs, p a = false) →
      (xs ++ ys).takeWhile p = xs.takeWhile p := by
  intro xs
  induction xs with
  | nil => intro ys h; simp at h
  | cons x xs ih =>
    intro ys h
    by_cases hx : p x = true
    · have h' : ∃ a ∈ xs, p a = false := by
        rcases h with ⟨a, ha, hpa⟩
        rcases List.mem_cons.mp ha with h1 | h1
        · rw [h1, hx] at hpa; exact Bool.noConfusion hpa
        · exact ⟨a, h1, hpa⟩
      simp only [List.cons_append, List.takeWhile_cons, hx, if_pos]
      rw [ih ys h']
    · have hx' : p x = false := Bool.not_eq_true _ ▸ eq_false_of_ne_true hx
      simp [List.takeWhile_cons, hx']

theorem split_no_sep {sep : Char} : ∀ {cs : List Char}, sep ∉ cs →
    splitOnChar sep cs = [cs] := by
  intro cs h
  induction cs with
  | nil => rfl
  | cons c cs ih =>
    have hc : c ≠ sep := fun hc => h (by simp [hc])
    have h2 : sep ∉ cs := fun hm => h (List.mem_cons_of_mem _ hm)
    rw [split_cons, if_neg hc, ih h2]
    simp

/-- The default value of getLastD is irrelevant on a non-empty list. -/
theorem getLastD_ne_nil {α : Type} {l : List α} (h : l ≠ []) (d₁ d₂ : α) :
    l.getLastD d₁ = l.getLastD d₂ := by
  rw [List.getLastD_eq_getLast?, List.getLastD_eq_getLast?]
  rcases hL : l.getLast? with _ | y
  · exact absurd (List.getLast?_eq_none_iff.mp hL) h
  · rfl

/-- The last component of the split equals the reversed tail of non-separator
characters: what Python url.split of slash, index -1 returns is the substring
after the last separator. -/
theorem getLastD_split (sep : Char) : ∀ (u : List Char),
    (splitOnChar sep u).getLastD [] =
      (u.reverse.takeWhile (fun c => c != sep)).reverse := by
  intro u
  induction u with
  | nil => simp [splitOnChar]
  | cons c cs ih =>
    have hS := splitOnChar_ne_nil sep cs
    rw [split_cons, List.reverse_cons]
    by_cases hc : c = sep
    · have hstop : (fun c => c != sep) sep = false := by simp
      rw [if_pos hc, List.getLastD_cons, hc,
        takeWhile_append_stop (p := fun c => c != sep) hstop cs.reverse []]
      exact ih
    · rw [if_neg hc]
      by_cases hmem : sep ∈ cs
      · have h2 := @split_two_le sep cs hmem
        rcases hE : splitOnChar sep cs with _ | ⟨a, S1⟩
        · exact absurd hE hS
        rcases S1 with _ | ⟨b, S'⟩
        · rw [hE] at h2; simp at h2
        have hfalse : ∃ x ∈ cs.reverse, (fun c => c != sep) x = false :=
          ⟨sep, by simpa using hmem, by simp⟩
        rw [takeWhile_append_of_mem_false (p := fun c => c != sep) _ hfalse]
        rw [hE] at ih
        rw [List.headI_cons, List.tail_cons, List.getLastD_cons]
        rw [List.getLastD_cons] at ih
        rw [getLastD_ne_nil (l := b :: S') (by simp) (c :: a) a]
        exact ih
      · rw [split_no_sep hmem]
        simp only [List.headI_cons, List.tail_cons]
        have hall : ∀ a ∈ cs.reverse, (fun c => c != sep) a = true := by
          intro a ha
          have haa : a ∈ cs := by simpa using ha
          simp only [bne_iff_ne, ne_eq, decide_eq_true_eq]
          intro he
          exact hmem (he ▸ haa)
        rw [takeWhile_append_of_all (p := fun c => c != sep) _ hall]
        have hcne : (fun c => c != sep) c = true := by simp [hc]
        simp [List.takeWhile_cons, hcne]

/-! ## Helper lemmas about the listing-id regex -/

theorem matchedIdCore_digits {p d : List Char} (hd : d ≠ [])
    (hdig : ∀ c ∈ d, c.isDigit = true) (hp : p.getLast? = some '-') :
    matchedIdCore (p ++ d) = some d := by
  obtain ⟨q, hq⟩ : ∃ q, p.reverse = '-' :: q := by
    have hh : p.reverse.head? = some '-' := by rw [List.head?_reverse]; exact hp
    rcases hpr : p.reverse with _ | ⟨a, q⟩
    · rw [hpr] at hh; simp at hh
    · rw [hpr] at hh
      simp only [List.head?_cons, Option.some.injEq] at hh
      exact ⟨q, by rw [hh]⟩
  have hrev : (p ++ d).reverse = d.reverse ++ '-' :: q := by
    rw [List.reverse_append, hq]
  have halldig : ∀ c ∈ d.reverse, c.isDigit = true := by
    intro c hcm; exact hdig c (by simpa using hcm)
  have htake : ((p ++ d).reverse).takeWhile Char.isDigit = d.reverse := by
    rw [hrev, takeWhile_append_stop (p := Char.isDigit) (by decide) d.reverse q]
    exact takeWhile_all halldig
  have hdrop : ((p ++ d).reverse).dropWhile Char.isDigit = '-' :: q := by
    rw [hrev, dropWhile_append_of_all _ halldig]
    simp [List.dropWhile_cons]
  have hdr : d.reverse ≠ [] := by
    simpa [List.reverse_eq_nil_iff] using hd
  unfold matchedIdCore
  simp only [htake, hdrop, if_neg hdr, List.head?_cons, List.reverse_reverse,
    if_pos rfl, reduceIte]

theorem matchedId_append_digits {p d : List Char} (hd : d ≠ [])
    (hdig : ∀ c ∈ d, c.isDigit = true) (hp : p.getLast? = some '-') :
    matchedId (p ++ d) = some d := by
  have hne : (p ++ d).getLast? ≠ some '/' := by
    rw [List.getLast?_append_of_ne_nil p hd]
    rcases hdl : d.getLast? with _ | y
    · simp
    · have hydig := hdig y (mem_of_getLast?_eq hdl)
      intro he
      have hy : y = '/' := by simpa using he
      rw [hy] at hydig
      exact absurd hydig (by decide)
  unfold matchedId
  rw [if_neg hne]
  exact matchedIdCore_digits hd hdig hp

theorem matchedId_append_digits_slash {p d : List Char} (hd : d ≠ [])
    (hdig : ∀ c ∈ d, c.isDigit = true) (hp : p.getLast? = some '-') :
    matchedId (p ++ d ++ ['/']) = some d := by
  have h1 : (p ++ d ++ ['/']).getLast? = some '/' := List.getLast?_concat _
  have h2 : (p ++ d ++ ['/']).dropLast = p ++ d := List.dropLast_concat
  unfold matchedId
  rw [if_pos h1, h2]
  exact matchedIdCore_digits hd hdig hp

theorem matchedId_some_ne_nil {cs ds : List Char}
    (h : matchedId cs = some ds) : ds ≠ [] := by
  unfold matchedId matchedIdCore at h
  set base := if cs.getLast? = some '/' then cs.dropLast else cs with hb
  by_cases h1 : base.reverse.takeWhile Char.isDigit = []
  · rw [if_pos h1] at h; exact Option.noConfusion h
  · rw [if_neg h1] at h
    by_cases h2 : (base.reverse.dropWhile Char.isDigit).head? = some '-'
    · rw [if_pos h2] at h
      have := Option.some.injEq _ _ ▸ h
      simp only [Option.some.injEq] at h
      rw [← h]
      simpa [List.reverse_eq_nil_iff] using h1
    · rw [if_neg h2] at h; exact Option.noConfusion h

/-! ## Helper lemmas about extraction and the orchestrator -/

/-- The card filter of the loop: a link is present, non-empty and mentions
daft.ie.  This is the only condition under which a card yields a record. -/
def validCard (c : RawCard) : Bool :=
  match c.link with
  | none => false
  | some l => !(l == "") && hasSub "daft.ie".data l.data

theorem extractCard_isSome (c : RawCard) :
    (extractCard c).isSome = validCard c := by
  rcases c with ⟨link, pt, t, a⟩
  cases link with
  | none => rfl
  | some u =>
    simp only [extractCard, validCard]
    by_cases h1 : u = ""
    · simp [h1]
    · by_cases h2 : hasSub "daft.ie".data u.data = true
      · simp [h1, h2]
      · simp [h1, h2]

theorem extractCard_some {card : RawCard} {l : Listing}
    (h : extractCard card = some l) :
    card.link = some l.link ∧ l.id = extract_listing_id l.link ∧
      l.link ≠ "" ∧ hasSub "daft.ie".data l.link.data = true := by
  rcases card with ⟨link, pt, t, a⟩
  cases link with
  | none => exact Option.noConfusion h
  | some u =>
    simp only [extractCard] at h
    by_cases h1 : u = ""
    · rw [if_pos h1] at h; exact Option.noConfusion h
    · rw [if_neg h1] at h
      by_cases h2 : hasSub "daft.ie".data u.data = true
      · rw [if_neg (by simp [h2])] at h
        have h' := Option.some.inj h
        subst h'
        exact ⟨rfl, rfl, h1, h2⟩
      · rw [if_pos (by simpa using h2)] at h
        exact Option.noConfusion h

theorem string_ne_empty_iff (s : String) : s ≠ "" ↔ s.data ≠ [] := by
  constructor
  · intro h hd
    exact h (by rw [← string_mk_data s, hd])
  · intro h hs
    exact h (by rw [hs])

/-- The derived id is non-empty whenever the URL is non-empty and does not
end with a slash. -/
theorem extract_listing_id_ne_empty {url : String} (h0 : url ≠ "")
    (h1 : url.data.getLast? ≠ some '/') : extract_listing_id url ≠ "" := by
  unfold extract_listing_id
  rcases hm : matchedId url.data with _ | ds
  · rw [getLastD_split]
    intro he
    have hx : (url.data.reverse.takeWhile (fun c => c != '/')).reverse = [] := by
      simpa using congrArg String.data he
    rw [List.reverse_eq_nil_iff] at hx
    rcases hr : url.data.reverse with _ | ⟨c, r⟩
    · rw [List.reverse_eq_nil_iff] at hr
      exact (string_ne_empty_iff url).mp h0 hr
    · have hh : url.data.getLast? = some c := by
        rw [← List.head?_reverse, hr]; rfl
      have hc : c ≠ '/' := fun he' => h1 (he' ▸ hh)
      have hct : (c != '/') = true := by simp [hc]
      rw [hr, List.takeWhile_cons, if_pos hct] at hx
      simp at hx
  · intro he
    have hx : ds = [] := by simpa using congrArg String.data he
    exact matchedId_some_ne_nil hm hx

theorem map_nlToSpace_id : ∀ {l : List Char}, '\n' ∉ l →
    l.map nlToSpace = l := by
  intro l h
  induction l with
  | nil => rfl
  | cons c l ih =>
    have hc : c ≠ '\n' := fun he => h (by simp [he])
    have h2 : '\n' ∉ l := fun hm => h (List.mem_cons_of_mem _ hm)
    simp [nlToSpace, hc, ih h2]

/-- On text that is already stripped, non-empty and newline free, parse_price
is the identity: it extracts nothing. -/
theorem parse_price_id {s : String} (h1 : stripChars s.data = s.data)
    (h2 : '\n' ∉ s.data) (h3 : s ≠ "") : parse_price s = s := by
  unfold parse_price
  rw [if_neg h3, h1, map_nlToSpace_id h2, string_mk_data]

def initState (file0 : List Char) : LoopState :=
  { newCount := 0, emailCount := 0, seen := load_seen_listings file0,
    file := file0, attempts := [], savedIds := [] }

theorem mainFn_st (credsOk : Bool) (oracle : Listing → Bool)
    (fetch : Except Unit (List RawCard)) (file0 : List Char) :
    (mainFn credsOk oracle fetch file0).st =
      processListings (sendOk credsOk oracle) (search_daft_listings fetch)
        (initState file0) := by
  unfold mainFn initState
  by_cases h : (search_daft_listings fetch).isEmpty = true
  · have he : search_daft_listings fetch = [] := by
      simpa using h
    rw [if_pos h, he]
    rfl
  · rw [if_neg h]

theorem mainFn_exitCode (credsOk : Bool) (oracle : Listing → Bool)
    (fetch : Except Unit (List RawCard)) (file0 : List Char) :
    (mainFn credsOk oracle fetch file0).exitCode = 0 := by
  unfold mainFn
  by_cases h : (search_daft_listings fetch).isEmpty = true
  · rw [if_pos h]
  · rw [if_neg h]

theorem string_data_mk (l : List Char) : (String.mk l).data = l := rfl

/-! ## Claim C3: price filtering in extraction -/

/-- Claim C3, counterexample: a record whose resolved price 999 lies strictly
below PRICE_MIN is kept by the extractor, so extraction does not drop records
whose resolved price is outside the configured bounds. -/
theorem C3_counterexample :
    (search_daft_listings (Except.ok
      [{ link := some "https://www.daft.ie/rooms/flat-9", priceText := some "€999",
         title := none, address := none }])).map (fun l => l.price) = ["€999"] ∧
    resolvedPriceSpec "€999" = some 999 ∧ 999 < PRICE_MIN := by decide

/-- Claim C3, amended: extraction applies no price filter at all.  A card
yields a record exactly when its link is present, non-empty and mentions
daft.ie; the price text plays no role in whether the record is kept. -/
theorem C3_theorem :
    (∀ c : RawCard, (extractCard c).isSome = true ↔
      ∃ u : String, c.link = some u ∧ u ≠ "" ∧
        hasSub "daft.ie".data u.data = true) ∧
    (∀ (c : RawCard) (p₁ p₂ : Option String),
      (extractCard { c with priceText := p₁ }).isSome =
        (extractCard { c with priceText := p₂ }).isSome) := by
  constructor
  · intro c
    rw [extractCard_isSome]
    rcases c with ⟨link, pt, t, a⟩
    cases link with
    | none => simp [validCard]
    | some u =>
      simp only [validCard, Bool.and_eq_true, Bool.not_eq_true',
        Option.some.injEq]
      constructor
      · rintro ⟨hu, hs⟩
        exact ⟨u, rfl, by simpa using hu, hs⟩
      · rintro ⟨u', hu', hne, hs⟩
        subst hu'
        exact ⟨by simpa using hne, hs⟩
  · intro c p₁ p₂
    rw [extractCard_isSome, extractCard_isSome]
    rcases c with ⟨link, pt, t, a⟩
    cases link <;> rfl

/-! ## Claim C6: derivation of the listing id from the URL -/

/-- Claim C6, counterexample: for a URL with no trailing numeric segment the
derived id is the last path segment, not the full URL as claimed. -/
theorem C6_counterexample :
    matchedId ("https://www.daft.ie/for-rent/abc".data) = none ∧
    extract_listing_id "https://www.daft.ie/for-rent/abc" = "abc" ∧
    extract_listing_id "https://www.daft.ie/for-rent/abc" ≠
      "https://www.daft.ie/for-rent/abc" := by decide

/-- Claim C6, amended: when the URL ends with a dash followed by a non-empty
digit run (optionally followed by one final slash) the derived id is that
digit run; otherwise it is the substring after the last slash (the final
path segment), not the full URL.  The derivation is a pure function of the
URL, hence stable across repeated fetches. -/
theorem C6_theorem :
    (∀ (p d : List Char), d ≠ [] → (∀ c ∈ d, c.isDigit = true) →
      p.getLast? = some '-' →
      extract_listing_id (String.mk (p ++ d)) = String.mk d ∧
      extract_listing_id (String.mk (p ++ d ++ ['/'])) = String.mk d) ∧
    (∀ u : List Char, matchedId u = none →
      extract_listing_id (String.mk u) =
        String.mk ((u.reverse.takeWhile (fun c => c != '/')).reverse)) := by
  constructor
  · intro p d hd hdig hp
    constructor
    · simp only [extract_listing_id, string_data_mk,
        matchedId_append_digits hd hdig hp]
    · simp only [extract_listing_id, string_data_mk,
        matchedId_append_digits_slash hd hdig hp]
  · intro u hm
    simp only [extract_listing_id, string_data_mk, hm, getLastD_split]

/-- Claim C6, witness: the amended statement evaluated on the concrete
URL x-12 and its slash variant. -/
theorem C6_witness :
    extract_listing_id (String.mk (['x', '-'] ++ ['1', '2'])) =
      String.mk ['1', '2'] ∧
    extract_listing_id (String.mk (['x', '-'] ++ ['1', '2'] ++ ['/'])) =
      String.mk ['1', '2'] :=
  C6_theorem.1 ['x', '-'] ['1', '2'] (by decide) (by decide) (by decide)

/-! ## Claim C7: order and duplicates in the extraction output -/

/-- Claim C7, counterexample: two cards sharing a link yield two records with
the same id, so duplicates by id are not collapsed by extraction. -/
theorem C7_counterexample :
    (search_daft_listings (Except.ok
      [{ link := some "https://www.daft.ie/rooms/apt-123", priceText := some "€1,200",
         title := none, address := none },
       { link := some "https://www.daft.ie/rooms/apt-123", priceText := some "€1,200",
         title := none, address := none }])).map (fun l => l.id) =
      ["123", "123"] := by decide

/-- Claim C7, amended: the extractor output preserves source order (it is a
homomorphism for concatenation of card lists) and keeps one record per card
with a usable link; duplicate ids are not collapsed. -/
theorem C7_theorem :
    (∀ pre suf : List RawCard,
      search_daft_listings (Except.ok (pre ++ suf)) =
        search_daft_listings (Except.ok pre) ++
          search_daft_listings (Except.ok suf)) ∧
    (∀ cards : List RawCard,
      (search_daft_listings (Except.ok cards)).length =
        (cards.filter validCard).length) := by
  constructor
  · intro pre suf
    simp [search_daft_listings, List.filterMap_append]
  · intro cards
    induction cards with
    | nil => rfl
    | cons c cards ih =>
      simp only [search_daft_listings] at ih ⊢
      rw [List.filterMap_cons, List.filter_cons]
      rcases hE : extractCard c with _ | l
      · have hv : validCard c = false := by
          rw [← extractCard_isSome, hE]; rfl
        simp [hv, ih]
      · have hv : validCard c = true := by
          rw [← extractCard_isSome, hE]; rfl
        simp [hv, ih]

/-! ## Claim C8: price parsing -/

/-- Claim C8, counterexample: parse_price performs no digit extraction and
never yields the value unknown; it returns the cleaned text itself. -/
theorem C8_counterexample :
    parse_price "€1,500 per month" = "€1,500 per month" ∧
    parse_price "€1,500 per month" ≠ "1500" ∧
    parse_price "POA" ≠ "unknown" := by decide

/-- Claim C8, amended: parse_price maps empty text to N/A and otherwise only
strips surrounding whitespace and replaces newlines by spaces; on text that
is already stripped, newline free and non-empty it is the identity, so no
digit run is ever extracted and no unknown marker is produced. -/
theorem C8_theorem :
    parse_price "" = "N/A" ∧
    ∀ s : String, stripChars s.data = s.data → '\n' ∉ s.data → s ≠ "" →
      parse_price s = s :=
  ⟨rfl, fun _ h1 h2 h3 => parse_price_id h1 h2 h3⟩

/-- Claim C8, witness: the amended statement evaluated at a concrete price
text. -/
theorem C8_witness :
    (stripChars "€950".data = "€950".data ∧ '\n' ∉ "€950".data ∧
      ("€950" : String) ≠ "") ∧
    parse_price "€950" = "€950" :=
  ⟨by decide, C8_theorem.2 "€950" (by decide) (by decide) (by decide)⟩

/-! ## Claim C9: idempotence of record then load -/

/-- Claim C9, counterexample: for the empty id the claim fails: recording it
twice and loading yields a set that does not contain it, because blank lines
are discarded by load_seen_listings. -/
theorem C9_counterexample :
    "" ∉ load_seen_listings (save_listing_id (save_listing_id [] "") "") := by
  decide

/-- Claim C9, amended: for every id that is non-empty, newline free and
unchanged by stripping, and every newline-terminated (or empty) prior store,
recording the id twice and loading yields a set containing the id, and that
set equals the one obtained after recording the id once. -/
theorem C9_theorem {F : List Char} {id : String} (h1 : cleanIdB id = true)
    (h2 : nlTerm F = true) :
    id ∈ load_seen_listings (save_listing_id (save_listing_id F id) id) ∧
    load_seen_listings (save_listing_id (save_listing_id F id) id) =
      load_seen_listings (save_listing_id F id) := by
  have e1 := load_record h2 h1
  have e2 := load_record (nlTerm_save F id) h1
  rw [e2, e1]
  exact ⟨Finset.mem_insert_self _ _, by rw [Finset.insert_idem]⟩

/-- Claim C9, witness: the amended statement evaluated at a concrete id and
store. -/
theorem C9_witness :
    (cleanIdB "b" = true ∧ nlTerm ['a', '\n'] = true) ∧
    ("b" ∈ load_seen_listings
        (save_listing_id (save_listing_id ['a', '\n'] "b") "b") ∧
      load_seen_listings
          (save_listing_id (save_listing_id ['a', '\n'] "b") "b") =
        load_seen_listings (save_listing_id ['a', '\n'] "b")) :=
  ⟨by decide, C9_theorem (by decide) (by decide)⟩

/-! ## Claim C10: ids of extracted records are non-empty -/

/-- Claim C10, counterexample: a daft.ie link ending in a slash with no
trailing numeric segment yields a record whose id is the empty string. -/
theorem C10_counterexample :
    (search_daft_listings (Except.ok
      [{ link := some "https://www.daft.ie/for-rent/rooms/",
         priceText := none, title := none, address := none }])).map
      (fun l => l.id) = [""] := by decide

/-- Claim C10, amended: every record produced by the card loop has a
non-empty id provided its link does not end with a slash; a trailing slash
with no numeric segment degrades to the empty id. -/
theorem C10_theorem {card : RawCard} {l : Listing}
    (h : extractCard card = some l)
    (hs : l.link.data.getLast? ≠ some '/') : l.id ≠ "" := by
  obtain ⟨-, hid, hne, -⟩ := extractCard_some h
  rw [hid]
  exact extract_listing_id_ne_empty hne hs

/-- Claim C10, witness: the amended statement evaluated at a concrete card. -/
theorem C10_witness :
    ({ id := "12", price := "N/A", address := "No title", title := "No title",
       link := "https://www.daft.ie/for-rent/apt-12" } : Listing).id ≠ "" :=
  @C10_theorem
    { link := some "https://www.daft.ie/for-rent/apt-12", priceText := none,
      title := none, address := none }
    { id := "12", price := "N/A", address := "No title", title := "No title",
      link := "https://www.daft.ie/for-rent/apt-12" }
    (by decide) (by decide)

/-! ## Claim C4: behavior on fetch failure -/

/-- Claim C4, counterexample: on fetch failure the cycle logs a message and
returns before the summary line, so no numeric summary of zero total and
zero new is reported. -/
theorem C4_counterexample :
    (mainFn true (fun _ => true) (Except.error ()) ['a', '\n']).summary =
      none ∧
    ((mainFn true (fun _ => true) (Except.error ()) ['a', '\n']).summary).isSome
      = false := by decide

/-- Claim C4, amended: on fetch failure the cycle ends with no notify
attempts, no saved ids, the persisted store and loaded seen set unchanged,
exit code zero and no exception, but it emits no numeric summary (the early
return skips the summary line). -/
theorem C4_theorem (credsOk : Bool) (oracle : Listing → Bool)
    (file0 : List Char) :
    (mainFn credsOk oracle (Except.error ()) file0).st.attempts = [] ∧
    (mainFn credsOk oracle (Except.error ()) file0).st.savedIds = [] ∧
    (mainFn credsOk oracle (Except.error ()) file0).st.file = file0 ∧
    (mainFn credsOk oracle (Except.error ()) file0).st.seen =
      load_seen_listings file0 ∧
    (mainFn credsOk oracle (Except.error ()) file0).summary = none ∧
    (mainFn credsOk oracle (Except.error ()) file0).exitCode = 0 :=
  ⟨rfl, rfl, rfl, rfl, rfl, rfl⟩

/-! ## Claim C5: behavior when credentials are missing -/

/-- Claim C5, counterexample: with missing credentials the cycle does not
abort and does not exit non-zero: the fetch and the per-listing loop still
run, a notify attempt is made (and fails), and the summary is logged with
exit code zero. -/
theorem C5_counterexample :
    (mainFn false (fun _ => true) (Except.ok
      [{ link := some "https://www.daft.ie/rooms/apt-77", priceText := some "€1,200",
         title := none, address := none }]) []).exitCode = 0 ∧
    (mainFn false (fun _ => true) (Except.ok
      [{ link := some "https://www.daft.ie/rooms/apt-77", priceText := some "€1,200",
         title := none, address := none }]) []).st.attempts = ["77"] ∧
    (mainFn false (fun _ => true) (Except.ok
      [{ link := some "https://www.daft.ie/rooms/apt-77", priceText := some "€1,200",
         title := none, address := none }]) []).summary = some (1, 1, 0) := by
  decide

/-- Claim C5, amended: missing credentials do not abort the cycle; every
notification call returns failure, so no id is recorded (the persisted store
and the seen set are unchanged), and the process still exits zero. -/
theorem C5_theorem (oracle : Listing → Bool)
    (fetch : Except Unit (List RawCard)) (file0 : List Char) :
    (mainFn false oracle fetch file0).st.savedIds = [] ∧
    (mainFn false oracle fetch file0).st.file = file0 ∧
    (mainFn false oracle fetch file0).st.seen = load_seen_listings file0 ∧
    (mainFn false oracle fetch file0).exitCode = 0 := by
  have hfail : ∀ l ∈ search_daft_listings fetch,
      sendOk false oracle l = false := fun l _ => rfl
  obtain ⟨e1, e2, e3, e4⟩ :=
    @process_nofail (sendOk false oracle) (search_daft_listings fetch)
      (initState file0) hfail
  refine ⟨?_, ?_, ?_, mainFn_exitCode false oracle fetch file0⟩
  · rw [mainFn_st]; exact e3
  · rw [mainFn_st]; exact e2
  · rw [mainFn_st]; exact e1

/-! ## Claim C1: notify-then-record ordering -/

/-- Claim C1: an id is recorded (appended to the store) during a cycle only
if a notification call for a listing with that id returned success in that
cycle, and an id all of whose notifications fail is left unrecorded both in
the persisted store and in the in-memory seen set.  Stated for stores the
script itself produces (newline terminated) and extracted ids that round
trip through the line-oriented store. -/
theorem C1_theorem (credsOk : Bool) (oracle : Listing → Bool)
    (fetch : Except Unit (List RawCard)) (file0 : List Char) (x : String)
    (hclean : ∀ l ∈ search_daft_listings fetch, cleanIdB l.id = true)
    (hnl : nlTerm file0 = true) :
    (x ∈ (mainFn credsOk oracle fetch file0).st.savedIds →
      ∃ l, l ∈ search_daft_listings fetch ∧ l.id = x ∧
        sendOk credsOk oracle l = true) ∧
    ((∀ l, l ∈ search_daft_listings fetch → l.id = x →
        sendOk credsOk oracle l = false) →
      x ∉ load_seen_listings file0 →
      x ∉ (mainFn credsOk oracle fetch file0).st.savedIds ∧
      x ∉ load_seen_listings (mainFn credsOk oracle fetch file0).st.file ∧
      x ∉ (mainFn credsOk oracle fetch file0).st.seen) := by
  rw [mainFn_st]
  constructor
  · intro hmem
    rcases process_savedIds_src hmem with h | h
    · exact absurd h (by simp [initState])
    · exact h
  · intro hfail hx0
    refine ⟨?_, ?_, ?_⟩
    · intro hmem
      rcases process_savedIds_src hmem with h | h
      · exact absurd h (by simp [initState])
      · rcases h with ⟨l, hl, hid, hn⟩
        have hc := hfail l hl hid
        rw [hn] at hc
        exact Bool.noConfusion hc
    · have hinv := @process_file_inv (sendOk credsOk oracle)
        (search_daft_listings fetch) (initState file0) hclean hnl
      exact hinv.2 x (fun l hl hid => hfail l hl hid) hx0
    · intro hmem
      rcases process_seen_src hmem with h | h
      · exact absurd h hx0
      · rcases h with ⟨l, hl, hid, hn⟩
        have hc := hfail l hl hid
        rw [hn] at hc
        exact Bool.noConfusion hc

/-- Claim C1, witness: with a failing notifier the new id 55 stays out of
the saved ids, the persisted store and the seen set. -/
theorem C1_witness :
    "55" ∉ (mainFn true (fun _ => false) (Except.ok
      [{ link := some "https://www.daft.ie/a-55", priceText := none,
         title := none, address := none }]) []).st.savedIds ∧
    "55" ∉ load_seen_listings (mainFn true (fun _ => false) (Except.ok
      [{ link := some "https://www.daft.ie/a-55", priceText := none,
         title := none, address := none }]) []).st.file ∧
    "55" ∉ (mainFn true (fun _ => false) (Except.ok
      [{ link := some "https://www.daft.ie/a-55", priceText := none,
         title := none, address := none }]) []).st.seen :=
  (C1_theorem true (fun _ => false) (Except.ok
      [{ link := some "https://www.daft.ie/a-55", priceText := none,
         title := none, address := none }]) [] "55"
    (by decide) (by decide)).2 (by decide) (by decide)

/-! ## Claim C2: exactly one notify attempt per new listing -/

/-- Claim C2, counterexample: when the fetch result carries the same listing
twice (an in-range resolved price, id not seen) and the notifier fails, two
notify attempts are made for that id in one cycle, not exactly one. -/
theorem C2_counterexample :
    resolvedPriceSpec "€1,200" = some 1200 ∧
    PRICE_MIN ≤ 1200 ∧ 1200 ≤ PRICE_MAX ∧
    "12345" ∉ load_seen_listings [] ∧
    (search_daft_listings (Except.ok
      [{ link := some "https://www.daft.ie/x-12345", priceText := some "€1,200",
         title := none, address := none },
       { link := some "https://www.daft.ie/x-12345", priceText := some "€1,200",
         title := none, address := none }])).map (fun l => l.price) =
      ["€1,200", "€1,200"] ∧
    ((mainFn true (fun _ => false) (Except.ok
      [{ link := some "https://www.daft.ie/x-12345", priceText := some "€1,200",
         title := none, address := none },
       { link := some "https://www.daft.ie/x-12345", priceText := some "€1,200",
         title := none, address := none }]) []).st.attempts).count "12345" =
      2 := by decide

/-- Claim C2, amended: when the ids of the fetched listings are pairwise
distinct, every listing whose id is not in the loaded seen set receives
exactly one notify attempt in the cycle, regardless of its price and of the
notify outcomes for other records. -/
theorem C2_theorem (credsOk : Bool) (oracle : Listing → Bool)
    (fetch : Except Unit (List RawCard)) (file0 : List Char) (l : Listing)
    (hnd : ((search_daft_listings fetch).map (fun l => l.id)).Nodup)
    (hmem : l ∈ search_daft_listings fetch)
    (hseen : l.id ∉ load_seen_listings file0) :
    ((mainFn credsOk oracle fetch file0).st.attempts).count l.id = 1 := by
  rw [mainFn_st]
  have hx : l.id ∈ (search_daft_listings fetch).map (fun l => l.id) :=
    List.mem_map.mpr ⟨l, hmem, rfl⟩
  have h := @process_count_one (sendOk credsOk oracle)
    (search_daft_listings fetch) (initState file0) l.id hnd hx hseen
  rw [h]
  rfl

/-- Claim C2, witness: the amended statement evaluated on one concrete new
listing: exactly one attempt. -/
theorem C2_witness :
    ((mainFn true (fun _ => true) (Except.ok
      [{ link := some "https://www.daft.ie/y-77", priceText := none,
         title := none, address := none }]) []).st.attempts).count "77" = 1 :=
  C2_theorem true (fun _ => true) (Except.ok
      [{ link := some "https://www.daft.ie/y-77", priceText := none,
         title := none, address := none }]) []
    { id := "77", price := "N/A", address := "No title", title := "No title",
      link := "https://www.daft.ie/y-77" }
    (by decide) (by decide) (by decide)
